import Mathlib

/-!
Verification of the `papaya` concurrent hash map public interface
(`src/map.rs`) against its specification, in a sequential shallow
embedding.

The repository ships only the public facade `map.rs`; the core table
module `raw` is consumed through the narrow interface
`raw::HashMap::{get_entry, insert, update, remove, iter, len}` together
with the `EntryStatus` result type.  Following the specification's
sequential description of these protocols (spec sections 4.2-4.5, 4.7),
the raw table is modelled as its logical key-value content: a list of
bindings (each slot holding a published `Entry`) plus the set of keys
whose slots currently hold a `Tombstone`.  Guards and the reclamation
interface are identities in a sequential embedding; references `&V` are
modelled as values.

The facade operations (`HashMap.get`, `insert`, `try_insert`, `update`,
`remove`, `remove_entry`, `contains_key`, `get_key_value`, `iter`,
`len`, `beq`, `clone`) are translated directly from `src/map.rs`; the
`unreachable!` arms of `insert` and `try_insert` are modelled by an
`Option` result, `none` meaning a panic.
-/

set_option autoImplicit false

universe u v

variable {K : Type u} {V : Type v}

/-- Modelled from the spec: the `EntryStatus` result of the raw insert
protocol (spec section 4.3): `Empty`/`Tombstone` report a successful
install into an empty or tombstoned slot and carry the installed value;
`Replaced` carries the replaced value; `Error` carries the current value
and the value that was not inserted. -/
inductive EntryStatus (V : Type v) where
  | Empty (value : V)
  | Tombstone (value : V)
  | Replaced (value : V)
  | Error (current : V) (not_inserted : V)
  deriving DecidableEq

/-- Modelled from the spec: the logical state of the missing `raw`
module's `raw::HashMap` (spec sections 2-3).  `entries` are the live
`Entry(p)` slots, in some order; `tombs` records the keys whose removal
left a `Tombstone` slot behind (observable only through the
`Empty`/`Tombstone` distinction of `EntryStatus`). -/
structure RawMap (K : Type u) (V : Type v) where
  entries : List (K × V)
  tombs : List K
  deriving DecidableEq

/-- Modelled from the spec: locate the entry for `k` by the get protocol
(spec section 4.2); returns the stored key-value pair. -/
def RawMap.get_entry [DecidableEq K] (m : RawMap K V) (k : K) : Option (K × V) :=
  m.entries.find? fun e => decide (e.1 = k)

/-- Replace the first binding whose key is `k` with the freshly allocated
entry `(k, v)` — the CAS of the located slot from `Entry(cur)` to
`Entry(new)` of spec sections 4.3-4.4. -/
def setEntry [DecidableEq K] (k : K) (v : V) : List (K × V) → List (K × V)
  | [] => []
  | e :: es => if e.1 = k then (k, v) :: es else e :: setEntry k v es

/-- Drop the first binding whose key is `k` — the CAS of the located slot
from `Entry(cur)` to `Tombstone` of spec section 4.5. -/
def eraseEntry [DecidableEq K] (k : K) : List (K × V) → List (K × V)
  | [] => []
  | e :: es => if e.1 = k then es else e :: eraseEntry k es

/-- Modelled from the spec: the raw insert protocol (spec section 4.3).
If an entry with the key is found: with `replace` the slot is CASed to
the new entry and `Replaced` reports the old value; without `replace`
the map is left unchanged and `Error` reports the current value and
returns ownership of the rejected one.  Otherwise the new entry is
installed, into a tombstoned slot (`Tombstone`) when the key's slot held
a tombstone, into an empty slot (`Empty`) otherwise. -/
def RawMap.insert [DecidableEq K] (m : RawMap K V) (k : K) (v : V)
    (replace : Bool) : RawMap K V × EntryStatus V :=
  match m.get_entry k with
  | some cur =>
    if replace then
      ({ entries := setEntry k v m.entries, tombs := m.tombs }, .Replaced cur.2)
    else
      (m, .Error cur.2 v)
  | none =>
    if k ∈ m.tombs then
      ({ entries := (k, v) :: m.entries, tombs := m.tombs.erase k }, .Tombstone v)
    else
      ({ entries := (k, v) :: m.entries, tombs := m.tombs }, .Empty v)

/-- Modelled from the spec: the update protocol (spec section 4.4).
Locate the entry by the get protocol; if absent return `none`, otherwise
CAS the slot to a fresh entry holding `f` of the replaced value and
return the new value. -/
def RawMap.update [DecidableEq K] (m : RawMap K V) (k : K) (f : V → V) :
    RawMap K V × Option V :=
  match m.get_entry k with
  | some cur =>
    ({ entries := setEntry k (f cur.2) m.entries, tombs := m.tombs }, some (f cur.2))
  | none => (m, none)

/-- Modelled from the spec: the remove protocol (spec section 4.5).
Locate the entry by the get protocol; if found, CAS its slot to
`Tombstone` and return the stored key and value. -/
def RawMap.remove [DecidableEq K] (m : RawMap K V) (k : K) :
    RawMap K V × Option (K × V) :=
  match m.get_entry k with
  | some cur =>
    ({ entries := eraseEntry k m.entries, tombs := k :: m.tombs }, some cur)
  | none => (m, none)

/-- Modelled from the spec: `len` counts the live entries (spec
section 3, the `len` invariant). -/
def RawMap.len (m : RawMap K V) : Nat :=
  m.entries.length

/-- Modelled from the spec: iteration yields the key-value pair of every
live slot (spec section 4.7); sequentially, exactly the entry list. -/
def RawMap.iter (m : RawMap K V) : List (K × V) :=
  m.entries

/-- Modelled from the spec: the probe sequence (spec section 4.1) —
at step `i` the probed index is `(h + i*(i+1)/2) & (N-1)`, written here
as a remainder since `N` is a power of two. -/
def probe (h N i : Nat) : Nat :=
  (h + i * (i + 1) / 2) % N

/-- The error returned by `try_insert` when the key already exists
(`src/map.rs` lines 695-701): the value already present and the value
which was not inserted. -/
structure OccupiedError (V : Type v) where
  current : V
  not_inserted : V
  deriving DecidableEq

/-- The public facade (`src/map.rs` line 14): a wrapper around the raw
table. -/
structure HashMap (K : Type u) (V : Type v) where
  raw : RawMap K V
  deriving DecidableEq

/-- `HashMap::new` (`src/map.rs` lines 30-32): the empty map. -/
def HashMap.new : HashMap K V :=
  ⟨⟨[], []⟩⟩

/-- `HashMap::len` (`src/map.rs` lines 172-174). -/
def HashMap.len (m : HashMap K V) : Nat :=
  m.raw.len

/-- `HashMap::get` (`src/map.rs` lines 242-249):
`raw.get_entry(key).map(|(_, v)| v)`. -/
def HashMap.get [DecidableEq K] (m : HashMap K V) (k : K) : Option V :=
  (m.raw.get_entry k).map fun e => e.2

/-- `HashMap::contains_key` (`src/map.rs` lines 213-220):
`self.get(key).is_some()`. -/
def HashMap.contains_key [DecidableEq K] (m : HashMap K V) (k : K) : Bool :=
  (m.get k).isSome

/-- `HashMap::get_key_value` (`src/map.rs` lines 271-278):
`raw.get_entry(key)`. -/
def HashMap.get_key_value [DecidableEq K] (m : HashMap K V) (k : K) :
    Option (K × V) :=
  m.raw.get_entry k

/-- `HashMap::insert` (`src/map.rs` lines 307-314): raw insert with
`replace = true`; `Empty`/`Tombstone` yield `None`, `Replaced` yields
the previous value; the `Error` arm is `unreachable!`, modelled as the
`none` (panic) result of the facade. -/
def HashMap.insert [DecidableEq K] (m : HashMap K V) (k : K) (v : V) :
    Option (HashMap K V × Option V) :=
  match m.raw.insert k v true with
  | (r, .Empty _) => some (⟨r⟩, none)
  | (r, .Tombstone _) => some (⟨r⟩, none)
  | (r, .Replaced value) => some (⟨r⟩, some value)
  | (_, .Error _ _) => none

/-- `HashMap::try_insert` (`src/map.rs` lines 337-355): raw insert with
`replace = false`; `Empty`/`Tombstone` yield `Ok` of the inserted value,
`Error` yields the `OccupiedError`; the `Replaced` arm is
`unreachable!`, modelled as the `none` (panic) result of the facade. -/
def HashMap.try_insert [DecidableEq K] (m : HashMap K V) (k : K) (v : V) :
    Option (HashMap K V × Except (OccupiedError V) V) :=
  match m.raw.insert k v false with
  | (r, .Empty value) => some (⟨r⟩, .ok value)
  | (r, .Tombstone value) => some (⟨r⟩, .ok value)
  | (r, .Error current ni) => some (⟨r⟩, .error ⟨current, ni⟩)
  | (_, .Replaced _) => none

/-- `HashMap::update` (`src/map.rs` lines 380-385): delegates to the raw
update. -/
def HashMap.update [DecidableEq K] (m : HashMap K V) (k : K) (f : V → V) :
    HashMap K V × Option V :=
  (⟨(m.raw.update k f).1⟩, (m.raw.update k f).2)

/-- `HashMap::remove` (`src/map.rs` lines 404-414): raw remove, the
returned pair projected to its value. -/
def HashMap.remove [DecidableEq K] (m : HashMap K V) (k : K) :
    HashMap K V × Option V :=
  match m.raw.remove k with
  | (r, some kv) => (⟨r⟩, some kv.2)
  | (r, none) => (⟨r⟩, none)

/-- `HashMap::remove_entry` (`src/map.rs` lines 434-441): the raw
remove. -/
def HashMap.remove_entry [DecidableEq K] (m : HashMap K V) (k : K) :
    HashMap K V × Option (K × V) :=
  (⟨(m.raw.remove k).1⟩, (m.raw.remove k).2)

/-- `HashMap::iter` (`src/map.rs` lines 496-501): the raw iterator. -/
def HashMap.iter (m : HashMap K V) : List (K × V) :=
  m.raw.iter

/-- `PartialEq for HashMap` (`src/map.rs` lines 554-570): compare the
lengths, then check every pair yielded by iterating `self` against a
lookup in `other`. -/
def HashMap.beq [DecidableEq K] [DecidableEq V] (m1 m2 : HashMap K V) : Bool :=
  if m1.len ≠ m2.len then false
  else m1.iter.all fun e =>
    match m2.get e.1 with
    | some v => decide (e.2 = v)
    | none => false

/-- `Clone for HashMap` (`src/map.rs` lines 670-690): build a fresh map
and replay one `insert` per iterated entry; a panicking insert
propagates as `none`. -/
def HashMap.clone [DecidableEq K] (m : HashMap K V) : Option (HashMap K V) :=
  m.iter.foldlM (fun acc e => (HashMap.insert acc e.1 e.2).map fun p => p.1)
    HashMap.new

/-- Well-formedness of a table state, from the spec's invariant (spec
section 3): a key appears in at most one live entry slot. -/
def HashMap.WF (m : HashMap K V) : Prop :=
  (m.raw.entries.map Prod.fst).Nodup

instance [DecidableEq K] (m : HashMap K V) : Decidable m.WF := by
  unfold HashMap.WF
  infer_instance

example : HashMap.get (K := Nat) (V := Nat) ⟨⟨[(1, 5)], []⟩⟩ 1 = some 5 := by decide

example :
    HashMap.insert (K := Nat) (V := Nat) HashMap.new 1 5 =
      some (⟨⟨[(1, 5)], []⟩⟩, none) := by decide

section ListLemmas

variable [DecidableEq K]

/-- Looking up a key just consed to the front finds the new binding. -/
theorem find_cons_self (k : K) (v : V) (l : List (K × V)) :
    (((k, v) :: l).find? fun e => decide (e.1 = k)) = some (k, v) := by
  simp [List.find?]

/-- After replacing the first binding for `k`, looking `k` up finds the
new binding, provided some binding for `k` was present. -/
theorem find_setEntry (k : K) (v : V) (l : List (K × V)) (cur : K × V)
    (h : (l.find? fun e => decide (e.1 = k)) = some cur) :
    ((setEntry k v l).find? fun e => decide (e.1 = k)) = some (k, v) := by
  induction l with
  | nil => simp [List.find?] at h
  | cons e es ih =>
    by_cases he : e.1 = k
    · simp [setEntry, he, List.find?]
    · rw [List.find?] at h
      simp only [he] at h
      simp [setEntry, he, List.find?, ih h]

/-- A failed lookup means the key heads no binding of the list. -/
theorem find_eq_none_iff (k : K) (l : List (K × V)) :
    ((l.find? fun e => decide (e.1 = k)) = none) ↔ k ∉ l.map Prod.fst := by
  rw [List.find?_eq_none]
  constructor
  · intro h hk
    obtain ⟨e, he, hek⟩ := List.mem_map.mp hk
    have h2 := h e he
    simp only [decide_eq_true_eq] at h2
    exact h2 hek
  · intro h e he
    simp only [decide_eq_true_eq]
    exact fun hek => h (List.mem_map.mpr ⟨e, he, hek⟩)

/-- A successful lookup returns a member of the list carrying the looked
up key. -/
theorem find_mem (k : K) (l : List (K × V)) (cur : K × V)
    (h : (l.find? fun e => decide (e.1 = k)) = some cur) :
    cur ∈ l ∧ cur.1 = k := by
  have h2 := List.find?_some h
  exact ⟨List.mem_of_find?_eq_some h, by simpa using h2⟩

/-- In a list with no duplicate keys, looking up the key of a member
finds exactly that member. -/
theorem find_of_mem_nodup (l : List (K × V)) (e : K × V)
    (hn : (l.map Prod.fst).Nodup) (he : e ∈ l) :
    (l.find? fun x => decide (x.1 = e.1)) = some e := by
  induction l with
  | nil => simp at he
  | cons a as ih =>
    simp only [List.map_cons, List.nodup_cons] at hn
    rcases List.mem_cons.mp he with rfl | hmem
    · simp [List.find?]
    · have hne : a.1 ≠ e.1 := fun hc =>
        hn.1 (hc ▸ List.mem_map.mpr ⟨e, hmem, rfl⟩)
      rw [List.find?]
      simp only [hne]
      simpa using ih hn.2 hmem

/-- After erasing the first binding for `k` from a list with no
duplicate keys, looking `k` up fails. -/
theorem find_eraseEntry (k : K) (l : List (K × V))
    (hn : (l.map Prod.fst).Nodup) :
    ((eraseEntry k l).find? fun e => decide (e.1 = k)) = none := by
  induction l with
  | nil => simp [eraseEntry]
  | cons a as ih =>
    simp only [List.map_cons, List.nodup_cons] at hn
    by_cases ha : a.1 = k
    · rw [eraseEntry]
      simp only [ha, if_true]
      rw [find_eq_none_iff]
      exact ha ▸ hn.1
    · rw [eraseEntry]
      simp only [ha, if_false]
      rw [List.find?]
      simp only [ha]
      simpa using ih hn.2

/-- Two permuted lists with no duplicate keys agree on every lookup. -/
theorem find_perm (k : K) (l1 l2 : List (K × V)) (hp : l1.Perm l2)
    (hn : (l1.map Prod.fst).Nodup) :
    (l1.find? fun e => decide (e.1 = k)) = (l2.find? fun e => decide (e.1 = k)) := by
  rcases h1 : l1.find? fun e => decide (e.1 = k) with _ | cur
  · rw [h1]
    symm
    rw [find_eq_none_iff] at h1 ⊢
    intro hc
    exact h1 ((hp.map Prod.fst).mem_iff.mpr hc)
  · obtain ⟨hmem, hk⟩ := find_mem k l1 cur h1
    have hn2 : (l2.map Prod.fst).Nodup := (hp.map Prod.fst).nodup_iff.mp hn
    have h3 := find_of_mem_nodup l2 cur hn2 (hp.mem_iff.mp hmem)
    rw [hk] at h3
    rw [h1, h3]

/-- `setEntry` leaves the key list intact when some binding for the key
was present. -/
theorem map_fst_setEntry (k : K) (v : V) (l : List (K × V)) :
    ((l.find? fun e => decide (e.1 = k)).isSome) →
    (setEntry k v l).map Prod.fst = l.map Prod.fst := by
  induction l with
  | nil => simp [List.find?]
  | cons a as ih =>
    intro h
    by_cases ha : a.1 = k
    · simp [setEntry, ha]
    · rw [List.find?] at h
      simp only [ha] at h
      simp only [setEntry, ha, if_false, List.map_cons]
      rw [ih (by simpa using h)]

end ListLemmas

section Claims

variable [DecidableEq K]

/-- C1: Sequential round-trip at the public interface: for every map
state, key `k` and value `v`, after `insert(k, v)` a `get(k)` returns
`Some(v)`; and after `remove(k)` a `get(k)` returns `None`. -/
theorem insert_get_remove_get (m : HashMap K V) (k : K) (v : V) (h : m.WF) :
    (HashMap.insert m k v).map (fun p => HashMap.get p.1 k) = some (some v)
    ∧ HashMap.get (HashMap.remove m k).1 k = none := by
  constructor
  · rcases hfind : m.raw.entries.find? (fun e => decide (e.1 = k)) with _ | cur
    · by_cases ht : k ∈ m.raw.tombs <;>
        simp [HashMap.insert, RawMap.insert, RawMap.get_entry, hfind, ht,
          HashMap.get, find_cons_self]
    · simp [HashMap.insert, RawMap.insert, RawMap.get_entry, hfind,
        HashMap.get, find_setEntry k v m.raw.entries cur hfind]
  · rcases hfind : m.raw.entries.find? (fun e => decide (e.1 = k)) with _ | cur
    · simp [HashMap.remove, RawMap.remove, RawMap.get_entry, hfind, HashMap.get]
    · simp [HashMap.remove, RawMap.remove, RawMap.get_entry, hfind, HashMap.get,
        find_eraseEntry k m.raw.entries h]

theorem insert_get_remove_get_w :
    HashMap.WF (K := Nat) (V := Nat) ⟨⟨[(2, 3)], []⟩⟩ ∧
    ((HashMap.insert (K := Nat) (V := Nat) ⟨⟨[(2, 3)], []⟩⟩ 2 7).map
        (fun p => HashMap.get p.1 2) = some (some 7)
      ∧ HashMap.get (HashMap.remove (K := Nat) (V := Nat) ⟨⟨[(2, 3)], []⟩⟩ 2).1 2 = none) :=
  ⟨by decide, insert_get_remove_get ⟨⟨[(2, 3)], []⟩⟩ 2 7 (by decide)⟩

/-- C2: `insert` returns the optional previous value: `None` when the
key was absent (the raw insert reported `Empty` or `Tombstone`), and
`Some` of the previously associated value when it was present (the raw
insert reported `Replaced`). -/
theorem insert_returns_previous (m : HashMap K V) (k : K) (v : V) :
    (HashMap.insert m k v).map Prod.snd = some (HashMap.get m k)
    ∧ (((m.raw.insert k v true).2 = EntryStatus.Empty v
        ∨ (m.raw.insert k v true).2 = EntryStatus.Tombstone v)
       ↔ HashMap.get m k = none) := by
  rcases hg : m.raw.get_entry k with _ | cur
  · by_cases ht : k ∈ m.raw.tombs <;>
      simp [HashMap.insert, RawMap.insert, hg, ht, HashMap.get]
  · simp [HashMap.insert, RawMap.insert, hg, HashMap.get]

theorem insert_returns_previous_scenario_a :
    (HashMap.insert (K := Nat) (V := Nat) HashMap.new 1 10).map Prod.snd = some none
    ∧ ((HashMap.insert (K := Nat) (V := Nat) HashMap.new 1 10).bind
        fun p => (HashMap.insert p.1 1 20).map Prod.snd) = some (some 10) := by
  decide

/-- C4: `update` is a compare-and-swap on the key's value: when the key
is absent it returns `None` and the map is unchanged; when the key maps
to `v` it replaces the binding with `(k, f v)` and returns `Some (f v)`,
with `f` evaluated against exactly the value the new entry replaces. -/
theorem update_is_cas (m : HashMap K V) (k : K) (f : V → V) :
    (HashMap.update m k f).2 = (HashMap.get m k).map f
    ∧ (HashMap.update m k f).1.raw.entries =
        (match HashMap.get m k with
         | none => m.raw.entries
         | some v => setEntry k (f v) m.raw.entries)
    ∧ (HashMap.update m k f).1.raw.tombs = m.raw.tombs
    ∧ HashMap.get (HashMap.update m k f).1 k = (HashMap.get m k).map f := by
  rcases hfind : m.raw.entries.find? (fun e => decide (e.1 = k)) with _ | cur
  · simp [HashMap.update, RawMap.update, RawMap.get_entry, hfind, HashMap.get]
  · simp [HashMap.update, RawMap.update, RawMap.get_entry, hfind, HashMap.get,
      find_setEntry k (f cur.2) m.raw.entries cur hfind]

/-- C3: `try_insert` on an already-present key fails with a structured
error and leaves the map unchanged: when `k` maps to `v1`,
`try_insert(k, v2)` returns `Err(OccupiedError)` whose `current` field
is `v1` and whose `not_inserted` field returns the rejected `v2`, and
the map state is unchanged (so `k` still maps to `v1`); when `k` is
absent, `try_insert(k, v2)` returns `Ok` of the inserted `v2`. -/
theorem try_insert_occupied (m m2 : HashMap K V) (k : K) (v1 v2 : V)
    (h1 : HashMap.get m k = some v1) (h2 : HashMap.get m2 k = none) :
    HashMap.try_insert m k v2 = some (m, Except.error ⟨v1, v2⟩)
    ∧ HashMap.get m k = some v1
    ∧ ∃ r, HashMap.try_insert m2 k v2 = some (r, Except.ok v2)
        ∧ HashMap.get r k = some v2 := by
  rw [HashMap.get] at h1 h2
  obtain ⟨cur, hcur, hv⟩ := Option.map_eq_some'.mp h1
  have h2n : m2.raw.get_entry k = none := Option.map_eq_none'.mp h2
  refine ⟨?_, h1, ?_⟩
  · simp [HashMap.try_insert, RawMap.insert, hcur, hv]
  · by_cases ht : k ∈ m2.raw.tombs
    · exact ⟨⟨⟨(k, v2) :: m2.raw.entries, m2.raw.tombs.erase k⟩⟩,
        by simp [HashMap.try_insert, RawMap.insert, h2n, ht],
        by simp [HashMap.get, RawMap.get_entry, find_cons_self]⟩
    · exact ⟨⟨⟨(k, v2) :: m2.raw.entries, m2.raw.tombs⟩⟩,
        by simp [HashMap.try_insert, RawMap.insert, h2n, ht],
        by simp [HashMap.get, RawMap.get_entry, find_cons_self]⟩

theorem try_insert_occupied_w :
    HashMap.try_insert (K := Nat) (V := Nat) ⟨⟨[(37, 1)], []⟩⟩ 37 2 =
        some (⟨⟨[(37, 1)], []⟩⟩, Except.error ⟨1, 2⟩)
    ∧ HashMap.get (K := Nat) (V := Nat) ⟨⟨[(37, 1)], []⟩⟩ 37 = some 1
    ∧ ∃ r, HashMap.try_insert (K := Nat) (V := Nat) HashMap.new 37 2 =
          some (r, Except.ok 2)
        ∧ HashMap.get r 37 = some 2 :=
  try_insert_occupied ⟨⟨[(37, 1)], []⟩⟩ HashMap.new 37 1 2 (by decide) (by decide)

/-- C5: Iteration yields each key exactly once, in the sequential
embedding: `iter` enumerates exactly the map's key-value pairs — a pair
is yielded iff `get` returns it — and every present key appears exactly
once among the yielded keys. -/
theorem iter_yields_exactly_once (m : HashMap K V) (h : m.WF) :
    (∀ k v, HashMap.get m k = some v ↔ (k, v) ∈ HashMap.iter m)
    ∧ ∀ k, HashMap.contains_key m k = true →
        ((HashMap.iter m).map Prod.fst).count k = 1 := by
  constructor
  · intro k v
    constructor
    · intro hg
      rw [HashMap.get] at hg
      obtain ⟨cur, hcur, hv⟩ := Option.map_eq_some'.mp hg
      obtain ⟨hmem, hk⟩ := find_mem k m.raw.entries cur hcur
      have : cur = (k, v) := Prod.ext hk hv
      rw [HashMap.iter, RawMap.iter]
      exact this ▸ hmem
    · intro hmem
      rw [HashMap.iter, RawMap.iter] at hmem
      have := find_of_mem_nodup m.raw.entries (k, v) h hmem
      simp [HashMap.get, RawMap.get_entry, this]
  · intro k hc
    rw [HashMap.contains_key, HashMap.get, RawMap.get_entry] at hc
    rcases hf : m.raw.entries.find? (fun e => decide (e.1 = k)) with _ | cur
    · rw [hf] at hc
      simp at hc
    · obtain ⟨hmem, hk⟩ := find_mem k m.raw.entries cur hf
      rw [HashMap.iter, RawMap.iter]
      exact List.count_eq_one_of_mem h (hk ▸ List.mem_map.mpr ⟨cur, hmem, rfl⟩)

theorem iter_yields_exactly_once_w :
    (∀ k v, HashMap.get (K := Nat) (V := Nat) ⟨⟨[(1, 2), (3, 4)], []⟩⟩ k = some v
      ↔ (k, v) ∈ HashMap.iter (K := Nat) (V := Nat) ⟨⟨[(1, 2), (3, 4)], []⟩⟩)
    ∧ ∀ k, HashMap.contains_key (K := Nat) (V := Nat) ⟨⟨[(1, 2), (3, 4)], []⟩⟩ k = true →
        ((HashMap.iter (K := Nat) (V := Nat) ⟨⟨[(1, 2), (3, 4)], []⟩⟩).map Prod.fst).count k = 1 :=
  iter_yields_exactly_once ⟨⟨[(1, 2), (3, 4)], []⟩⟩ (by decide)

/-- C9: The `unreachable!` arms in `HashMap::insert` and
`HashMap::try_insert` never execute: the raw insert with
`replace = true` never reports `Error` and with `replace = false` never
reports `Replaced`, so the facade operations never panic (their
modelled result is never `none`). -/
theorem unreachable_arms_never_fire (m : HashMap K V) (k : K) (v : V) :
    (HashMap.insert m k v).isSome = true
    ∧ (HashMap.try_insert m k v).isSome = true := by
  constructor
  · rcases hg : m.raw.get_entry k with _ | cur
    · by_cases ht : k ∈ m.raw.tombs <;>
        simp [HashMap.insert, RawMap.insert, hg, ht]
    · simp [HashMap.insert, RawMap.insert, hg]
  · rcases hg : m.raw.get_entry k with _ | cur
    · by_cases ht : k ∈ m.raw.tombs <;>
        simp [HashMap.try_insert, RawMap.insert, hg, ht]
    · simp [HashMap.try_insert, RawMap.insert, hg]

/-- A lookup succeeds exactly when the key heads some binding. -/
theorem find_isSome_iff (k : K) (l : List (K × V)) :
    ((l.find? fun e => decide (e.1 = k)).isSome = true) ↔ k ∈ l.map Prod.fst := by
  rcases hf : l.find? (fun e => decide (e.1 = k)) with _ | cur
  · rw [hf]
    have hf2 := (find_eq_none_iff k l).mp hf
    constructor
    · intro hc
      exact absurd hc (by simp)
    · intro hc
      exact absurd hc hf2
  · rw [hf]
    obtain ⟨hm, hk⟩ := find_mem k l cur hf
    constructor
    · intro _
      exact hk ▸ List.mem_map.mpr ⟨cur, hm, rfl⟩
    · intro _
      rfl

/-- The per-entry check of the map equality (`src/map.rs` line 568)
passes exactly when the other map returns the entry's value. -/
theorem beq_check [DecidableEq V] (m2 : HashMap K V) (e : K × V) :
    ((match HashMap.get m2 e.1 with
      | some v => decide (e.2 = v)
      | none => false) = true) ↔ HashMap.get m2 e.1 = some e.2 := by
  rcases hg : HashMap.get m2 e.1 with _ | v <;> simp [hg, eq_comm]

/-- The public `get` succeeds exactly when the key heads a binding. -/
theorem get_isSome_iff_key_mem (m : HashMap K V) (k : K) :
    ((HashMap.get m k).isSome = true) ↔ k ∈ m.raw.entries.map Prod.fst := by
  rw [HashMap.get, Option.isSome_map', RawMap.get_entry, find_isSome_iff]

/-- C7: Map equality compares by cardinality then by keyed lookups: it
returns `false` when the lengths differ, and otherwise it holds exactly
when every pair iterated from the first map is found in the second — on
well-formed states, exactly when the two maps agree on every lookup. -/
theorem eq_compares_len_then_lookups [DecidableEq V] (m1 m2 : HashMap K V)
    (h1 : m1.WF) (h2 : m2.WF) :
    (HashMap.len m1 ≠ HashMap.len m2 → HashMap.beq m1 m2 = false)
    ∧ (HashMap.beq m1 m2 = true ↔ ∀ q, HashMap.get m1 q = HashMap.get m2 q) := by
  constructor
  · intro hne
    rw [HashMap.beq, if_pos hne]
  · constructor
    · intro hb
      rw [HashMap.beq] at hb
      by_cases hlen : HashMap.len m1 = HashMap.len m2
      case neg =>
        rw [if_pos hlen] at hb
        exact absurd hb (by simp)
      rw [if_neg (by simp [hlen])] at hb
      have hall := List.all_eq_true.mp hb
      have hsub : ∀ x ∈ m1.raw.entries.map Prod.fst, x ∈ m2.raw.entries.map Prod.fst := by
        intro x hx
        obtain ⟨e, he, rfl⟩ := List.mem_map.mp hx
        have hp := (beq_check m2 e).mp (hall e he)
        rw [HashMap.get] at hp
        obtain ⟨cur, hcur, -⟩ := Option.map_eq_some'.mp hp
        rw [RawMap.get_entry] at hcur
        obtain ⟨hm, hk⟩ := find_mem e.1 m2.raw.entries cur hcur
        exact hk ▸ List.mem_map.mpr ⟨cur, hm, rfl⟩
      have hcard : (m2.raw.entries.map Prod.fst).toFinset.card ≤
          (m1.raw.entries.map Prod.fst).toFinset.card := by
        rw [List.toFinset_card_of_nodup h1, List.toFinset_card_of_nodup h2,
          List.length_map, List.length_map]
        exact le_of_eq (hlen : m1.raw.entries.length = m2.raw.entries.length).symm
      have hfin : (m1.raw.entries.map Prod.fst).toFinset =
          (m2.raw.entries.map Prod.fst).toFinset :=
        Finset.eq_of_subset_of_card_le
          (fun x hx => List.mem_toFinset.mpr (hsub x (List.mem_toFinset.mp hx))) hcard
      have hmemiff : ∀ x, x ∈ m1.raw.entries.map Prod.fst ↔ x ∈ m2.raw.entries.map Prod.fst := by
        intro x
        rw [← List.mem_toFinset, hfin, List.mem_toFinset]
      intro q
      rcases hq : HashMap.get m1 q with _ | v
      · have hq1 : q ∉ m1.raw.entries.map Prod.fst := by
          rw [HashMap.get] at hq
          exact (find_eq_none_iff q m1.raw.entries).mp (Option.map_eq_none'.mp hq)
        have hq2 : q ∉ m2.raw.entries.map Prod.fst := fun hc => hq1 ((hmemiff q).mpr hc)
        symm
        rw [HashMap.get, Option.map_eq_none', RawMap.get_entry, find_eq_none_iff]
        exact hq2
      · have hq0 := hq
        rw [HashMap.get] at hq
        obtain ⟨cur, hcur, hv⟩ := Option.map_eq_some'.mp hq
        rw [RawMap.get_entry] at hcur
        obtain ⟨hm, hk⟩ := find_mem q m1.raw.entries cur hcur
        have hp := (beq_check m2 cur).mp (hall cur hm)
        rw [hk] at hp
        rw [hv] at hp
        rw [hp]
    · intro hget
      have hks : ∀ x, x ∈ m1.raw.entries.map Prod.fst ↔ x ∈ m2.raw.entries.map Prod.fst := by
        intro x
        rw [← get_isSome_iff_key_mem, ← get_isSome_iff_key_mem, hget x]
      have hfin : (m1.raw.entries.map Prod.fst).toFinset =
          (m2.raw.entries.map Prod.fst).toFinset :=
        Finset.ext fun x => by rw [List.mem_toFinset, List.mem_toFinset, hks x]
      have hlen : HashMap.len m1 = HashMap.len m2 := by
        have c1 := List.toFinset_card_of_nodup h1
        have c2 := List.toFinset_card_of_nodup h2
        rw [hfin, c2] at c1
        rw [List.length_map, List.length_map] at c1
        exact c1.symm
      rw [HashMap.beq, if_neg (by simp [hlen]), List.all_eq_true]
      intro e he
      rw [beq_check, ← hget e.1, HashMap.get, RawMap.get_entry,
        find_of_mem_nodup m1.raw.entries e h1 he]
      rfl

theorem eq_compares_len_then_lookups_w :
    (HashMap.len (K := Nat) (V := Nat) ⟨⟨[(1, 2), (3, 4)], []⟩⟩ ≠
        HashMap.len (K := Nat) (V := Nat) ⟨⟨[(3, 4), (1, 2)], [7]⟩⟩ →
      HashMap.beq ⟨⟨[(1, 2), (3, 4)], []⟩⟩ ⟨⟨[(3, 4), (1, 2)], [7]⟩⟩ = false)
    ∧ (HashMap.beq (K := Nat) (V := Nat) ⟨⟨[(1, 2), (3, 4)], []⟩⟩ ⟨⟨[(3, 4), (1, 2)], [7]⟩⟩ = true
      ↔ ∀ q, HashMap.get (K := Nat) (V := Nat) ⟨⟨[(1, 2), (3, 4)], []⟩⟩ q =
          HashMap.get (K := Nat) (V := Nat) ⟨⟨[(3, 4), (1, 2)], [7]⟩⟩ q) :=
  eq_compares_len_then_lookups ⟨⟨[(1, 2), (3, 4)], []⟩⟩ ⟨⟨[(3, 4), (1, 2)], [7]⟩⟩
    (by decide) (by decide)

/-- Replaying `insert` over a list of bindings with pairwise distinct
keys, none of which occurs in the accumulator and starting from a
tombstone-free state, never panics and accumulates the bindings in
reverse order. -/
theorem clone_fold (l : List (K × V)) (s : HashMap K V)
    (hn : (l.map Prod.fst).Nodup)
    (hd : ∀ e ∈ l, e.1 ∉ s.raw.entries.map Prod.fst)
    (ht : s.raw.tombs = []) :
    l.foldlM (fun acc e => (HashMap.insert acc e.1 e.2).map fun p => p.1) s
      = some ⟨⟨l.reverse ++ s.raw.entries, []⟩⟩ := by
  induction l generalizing s with
  | nil =>
    simp only [List.reverse_nil, List.nil_append, List.foldlM_nil]
    rw [← ht]
    rfl
  | cons e es ih =>
    have hfind : s.raw.entries.find? (fun x => decide (x.1 = e.1)) = none :=
      (find_eq_none_iff e.1 s.raw.entries).mpr (hd e (List.mem_cons_self e es))
    have hstep : HashMap.insert s e.1 e.2 =
        some (⟨⟨(e.1, e.2) :: s.raw.entries, s.raw.tombs⟩⟩, none) := by
      simp [HashMap.insert, RawMap.insert, RawMap.get_entry, hfind, ht]
    simp only [List.map_cons, List.nodup_cons] at hn
    rw [List.foldlM_cons, hstep]
    rw [Option.map_some']
    simp only [Option.bind_eq_bind, Option.some_bind]
    have hih := ih ⟨⟨(e.1, e.2) :: s.raw.entries, s.raw.tombs⟩⟩ hn.2 ?_ ht
    · rw [hih]
      simp [List.append_assoc]
    · intro x hx
      simp only [RawMap.entries, List.map_cons, List.mem_cons]
      rintro (hc | hc)
      · exact hn.1 (hc ▸ List.mem_map.mpr ⟨x, hx, rfl⟩)
      · exact hd x (List.mem_cons_of_mem e hx) hc

/-- C8: Cloning replays inserts and reproduces the map: `clone`
constructs a fresh map, performs one non-panicking insert per iterated
entry, and the resulting map is equal to the original (same key-value
pairs) — both by the map's own equality and on every lookup. -/
theorem clone_replays_inserts [DecidableEq V] (m : HashMap K V) (h : m.WF) :
    ∃ c, HashMap.clone m = some c
      ∧ HashMap.beq m c = true
      ∧ ∀ k, HashMap.get c k = HashMap.get m k := by
  refine ⟨⟨⟨m.raw.entries.reverse, []⟩⟩, ?_, ?_, ?_⟩
  · rw [HashMap.clone, HashMap.iter, RawMap.iter]
    have hcf := clone_fold m.raw.entries HashMap.new h (by simp [HashMap.new]) rfl
    simpa [HashMap.new] using hcf
  · have hget : ∀ k, HashMap.get (⟨⟨m.raw.entries.reverse, []⟩⟩ : HashMap K V) k
        = HashMap.get m k := by
      intro k
      rw [HashMap.get, HashMap.get, RawMap.get_entry, RawMap.get_entry]
      rw [find_perm k m.raw.entries m.raw.entries.reverse m.raw.entries.reverse_perm.symm h]
    rw [HashMap.beq, if_neg (by simp [HashMap.len, RawMap.len])]
    rw [List.all_eq_true]
    intro e he
    rw [HashMap.iter, RawMap.iter] at he
    rw [beq_check, hget e.1, HashMap.get, RawMap.get_entry,
      find_of_mem_nodup m.raw.entries e h he]
    rfl
  · intro k
    rw [HashMap.get, HashMap.get, RawMap.get_entry, RawMap.get_entry]
    rw [find_perm k m.raw.entries m.raw.entries.reverse m.raw.entries.reverse_perm.symm h]

theorem clone_replays_inserts_w :
    ∃ c, HashMap.clone (K := Nat) (V := Nat) ⟨⟨[(1, 2), (3, 4)], []⟩⟩ = some c
      ∧ HashMap.beq ⟨⟨[(1, 2), (3, 4)], []⟩⟩ c = true
      ∧ ∀ k, HashMap.get c k = HashMap.get (K := Nat) (V := Nat) ⟨⟨[(1, 2), (3, 4)], []⟩⟩ k :=
  clone_replays_inserts ⟨⟨[(1, 2), (3, 4)], []⟩⟩ (by decide)

/-- C10: The convenience operations agree with their entry-returning
counterparts: `contains_key` is `get` being `Some`; `get` is
`get_key_value` projected to the value; `remove` returns and effects
exactly what `remove_entry` does, projected to the value. -/
theorem convenience_ops_agree (m : HashMap K V) (k : K) :
    HashMap.contains_key m k = (HashMap.get m k).isSome
    ∧ HashMap.get m k = (HashMap.get_key_value m k).map Prod.snd
    ∧ (HashMap.remove m k).1 = (HashMap.remove_entry m k).1
    ∧ (HashMap.remove m k).2 = (HashMap.remove_entry m k).2.map Prod.snd := by
  refine ⟨rfl, rfl, ?_, ?_⟩ <;>
    · rcases hr : m.raw.remove k with ⟨r, _ | kv⟩ <;>
        simp [HashMap.remove, HashMap.remove_entry, hr]

/-- Linear bookkeeping step for the triangular-number difference. -/
theorem two_mul_sub_eq (A B t1 t2 s : Nat) (h1 : 2 * A = t1) (h2 : 2 * B = t2)
    (h3 : t2 = t1 + s) (h4 : A ≤ B) : (B - A) * 2 = s := by
  omega

/-- The triangular numbers `i*(i+1)/2` are pairwise distinct modulo
`2^k` on `0 ≤ i < 2^k`. -/
theorem tri_mod_two_pow_inj (k i j : Nat) (_hi : i < 2 ^ k) (hj : j < 2 ^ k)
    (hij : i ≤ j)
    (hmod : (i * (i + 1) / 2) % 2 ^ k = (j * (j + 1) / 2) % 2 ^ k) : i = j := by
  obtain ⟨d, rfl⟩ := Nat.exists_eq_add_of_le hij
  have hTle : i * (i + 1) / 2 ≤ (i + d) * ((i + d) + 1) / 2 :=
    Nat.div_le_div_right (Nat.mul_le_mul (by omega) (by omega))
  have hdvd : 2 ^ k ∣ (i + d) * ((i + d) + 1) / 2 - i * (i + 1) / 2 :=
    (Nat.modEq_iff_dvd' hTle).mp hmod
  have h2i : 2 * (i * (i + 1) / 2) = i * (i + 1) :=
    Nat.mul_div_cancel' (Nat.even_mul_succ_self i).two_dvd
  have h2j : 2 * ((i + d) * ((i + d) + 1) / 2) = (i + d) * ((i + d) + 1) :=
    Nat.mul_div_cancel' (Nat.even_mul_succ_self (i + d)).two_dvd
  have hexp : (i + d) * ((i + d) + 1) = i * (i + 1) + d * (i + (i + d) + 1) := by
    ring
  have hkey : ((i + d) * ((i + d) + 1) / 2 - i * (i + 1) / 2) * 2
      = d * (i + (i + d) + 1) :=
    two_mul_sub_eq _ _ _ _ _ h2i h2j hexp hTle
  have hdvd2 : 2 ^ (k + 1) ∣ d * (i + (i + d) + 1) := by
    rw [pow_succ, ← hkey]
    exact mul_dvd_mul_right hdvd 2
  have hpow : 2 ^ (k + 1) = 2 ^ k * 2 := pow_succ 2 k
  rcases Nat.even_or_odd d with hpar | hpar
  · have hodd : ¬ 2 ∣ (i + (i + d) + 1) := by
      obtain ⟨c, rfl⟩ := hpar
      omega
    have hcop : (2 ^ (k + 1)).Coprime (i + (i + d) + 1) :=
      Nat.Coprime.pow_left _ ((Nat.prime_two.coprime_iff_not_dvd).mpr hodd)
    have hdd : 2 ^ (k + 1) ∣ d := hcop.dvd_of_dvd_mul_right hdvd2
    have : d = 0 := Nat.eq_zero_of_dvd_of_lt hdd (by omega)
    omega
  · have hodd : ¬ 2 ∣ d := by
      obtain ⟨c, hc⟩ := hpar
      omega
    have hcop : (2 ^ (k + 1)).Coprime d :=
      Nat.Coprime.pow_left _ ((Nat.prime_two.coprime_iff_not_dvd).mpr hodd)
    have hds : 2 ^ (k + 1) ∣ (i + (i + d) + 1) := hcop.dvd_of_dvd_mul_left hdvd2
    have : i + (i + d) + 1 = 0 := Nat.eq_zero_of_dvd_of_lt hds (by omega)
    omega

/-- The probe sequence is injective on the first `N` steps for a
power-of-two table size. -/
theorem probe_inj (k h : Nat) (i j : Nat) (hi : i < 2 ^ k) (hj : j < 2 ^ k)
    (hp : probe h (2 ^ k) i = probe h (2 ^ k) j) : i = j := by
  have hmod : (i * (i + 1) / 2) % 2 ^ k = (j * (j + 1) / 2) % 2 ^ k :=
    Nat.ModEq.add_left_cancel' h hp
  rcases le_total i j with hij | hij
  · exact tri_mod_two_pow_inj k i j hi hj hij hmod
  · exact (tri_mod_two_pow_inj k j i hj hi hij hmod.symm).symm

/-- C6: The quadratic triangular probe sequence is a permutation: for
every hash `h` and table size `N = 2^k`, the indices
`(h + i*(i+1)/2) mod N` for `i = 0, ..., N-1` visit every slot in
`0..N` exactly once. -/
theorem probe_visits_every_slot_once (k h : Nat) :
    ((List.range (2 ^ k)).map (probe h (2 ^ k))).Perm (List.range (2 ^ k)) := by
  have hN : 0 < 2 ^ k := pow_pos (by norm_num) k
  have nd1 : ((List.range (2 ^ k)).map (probe h (2 ^ k))).Nodup :=
    List.Nodup.map_on
      (fun x hx y hy hxy =>
        probe_inj k h x y (List.mem_range.mp hx) (List.mem_range.mp hy) hxy)
      (List.nodup_range _)
  rw [List.perm_ext_iff_of_nodup nd1 (List.nodup_range _)]
  intro a
  simp only [List.mem_map, List.mem_range]
  constructor
  · rintro ⟨i, -, rfl⟩
    exact Nat.mod_lt _ hN
  · intro ha
    have hsurj : Function.Surjective
        (fun i : Fin (2 ^ k) => (⟨probe h (2 ^ k) i.1, Nat.mod_lt _ hN⟩ : Fin (2 ^ k))) := by
      rw [← Finite.injective_iff_surjective]
      intro x y hxy
      exact Fin.ext (probe_inj k h x.1 y.1 x.2 y.2 (by simpa using congrArg Fin.val hxy))
    obtain ⟨i, hi⟩ := hsurj ⟨a, ha⟩
    exact ⟨i.1, i.2, by simpa using congrArg Fin.val hi⟩

end Claims
